import Mathlib

/-!
# Verification of the RadioMasterRC manual-scraper pipeline

Shallow embedding of the core of `main.go`: the filename sanitizer
(`urlToFilename` and its helpers), the duplicate remover
(`removeDuplicatesFromSlice`), the link extractor (`extractPDFUrls`,
modelled on the parsed HTML tree), and the document fetcher
(`downloadPDF`, modelled over an explicit file store and network
environment).

String operations are modelled at the level of `List Char`
(Go strings are rune sequences for the operations used here); the
Unicode-dependent Go helpers (`strings.ToLower`, `strings.TrimSpace`)
are modelled on their ASCII/Latin-1 fragment, which is the fragment
the program exercises.
-/

namespace Scraper

/-- Model of Go `strings.Contains` on rune sequences:
`listContains s pat` is true iff `pat` occurs as a contiguous
substring of `s` (the empty pattern is contained everywhere). -/
def listContains (s pat : List Char) : Bool :=
  match s with
  | [] => pat.isEmpty
  | c :: tl => pat.isPrefixOf (c :: tl) || listContains tl pat

/-- Go `strings.Contains` on strings. -/
def strContains (s pat : String) : Bool :=
  listContains s.toList pat.toList

/-- ASCII fragment of Go `unicode.ToLower` (the program only ever
lower-cases URLs and hrefs, where only ASCII letters matter). -/
def toLowerChar (c : Char) : Char :=
  if 'A' ≤ c ∧ c ≤ 'Z' then Char.ofNat (c.toNat + 32) else c

/-- Model of Go `strings.ToLower` (ASCII fragment). -/
def strToLower (s : String) : String :=
  String.mk (s.toList.map toLowerChar)

/-- Latin-1 fragment of Go `unicode.IsSpace`, the cutset of
`strings.TrimSpace`. -/
def isSpaceChar (c : Char) : Bool :=
  c = ' ' || c = '\t' || c = '\n' || c = '\x0b' || c = '\x0c' ||
    c = '\r' || c = '\u0085' || c = '\u00A0'

/-- Model of Go `strings.TrimSpace`: drop whitespace from both ends. -/
def trimSpace (s : String) : String :=
  String.mk (((s.toList.dropWhile isSpaceChar).reverse.dropWhile isSpaceChar).reverse)

/-- `strings.Split(s, "?")[0]`: the prefix of `s` before the first `?`
(the whole string when there is no `?`). -/
def stripQuery (s : String) : String :=
  String.mk (s.toList.takeWhile (fun c => c != '?'))

/-- Model of Go `filepath.Base` (slash separator): `"."` for the empty
path, `"/"` for a path of only separators, otherwise the last
slash-separated element after trailing slashes are removed. -/
def goFilepathBase (path : String) : String :=
  if path = "" then "."
  else
    let noTrail := (path.toList.reverse.dropWhile (fun c => c == '/')).reverse
    if noTrail.isEmpty then "/"
    else String.mk ((noTrail.reverse.takeWhile (fun c => c != '/')).reverse)

/-- Source `getFilename`: extracts the base filename from a path via
`filepath.Base`. -/
def getFilename (path : String) : String :=
  goFilepathBase path

/-- Model of Go `filepath.Ext`: the suffix beginning at the final dot
in the final slash-separated element of the path; empty if there is
no dot. -/
def goFilepathExt (path : String) : String :=
  let rev := path.toList.reverse
  let seg := rev.takeWhile (fun c => c != '/')
  let pre := seg.takeWhile (fun c => c != '.')
  if pre.length = seg.length then ""
  else String.mk ('.' :: pre.reverse)

/-- Source `getFileExtension`: extracts the file extension via
`filepath.Ext`. -/
def getFileExtension (path : String) : String :=
  goFilepathExt path

/-- One step of the regex `[^a-z0-9]` → `"_"` replacement: a character
outside `[a-z0-9]` becomes an underscore. -/
def sanitizeChar (c : Char) : Char :=
  if ('a' ≤ c ∧ c ≤ 'z') ∨ ('0' ≤ c ∧ c ≤ '9') then c else '_'

/-- The regex `_+` → `"_"` replacement: collapse each run of
consecutive underscores to a single underscore. -/
def collapseUnderscores : List Char → List Char
  | [] => []
  | [c] => [c]
  | c1 :: c2 :: cs =>
    if c1 == '_' && c2 == '_' then collapseUnderscores (c2 :: cs)
    else c1 :: collapseUnderscores (c2 :: cs)

/-- `strings.Trim(s, "_")`: remove leading and trailing underscores. -/
def trimUnderscores (s : List Char) : List Char :=
  ((s.dropWhile (fun c => c == '_')).reverse.dropWhile (fun c => c == '_')).reverse

/-- Worker for `strings.ReplaceAll(s, pat, "")`: removes the leftmost
non-overlapping occurrences of `pat`. The counter `k` counts
characters of a matched occurrence still to be skipped. -/
def removeSubAux (pat : List Char) : List Char → Nat → List Char
  | [], _ => []
  | c :: cs, 0 =>
    if pat ≠ [] ∧ pat.isPrefixOf (c :: cs) then removeSubAux pat cs (pat.length - 1)
    else c :: removeSubAux pat cs 0
  | _ :: cs, k + 1 => removeSubAux pat cs k

/-- Source `removeSubstring`: `strings.ReplaceAll(input, toRemove, "")`,
removing every (leftmost, non-overlapping) occurrence of `toRemove`. -/
def removeSubstring (input toRemove : String) : String :=
  String.mk (removeSubAux toRemove.toList input.toList 0)

/-- Source `urlToFilename`: lower-case the URL, drop the query string,
reduce to the basename, capture the extension, replace non-alphanumeric
characters by underscores, collapse and trim underscores, strip the
redundant `_pdf`/`_zip`/`_txt` echoes, and re-append the extension when
the cleaned name has none. -/
def urlToFilename (rawURL : String) : String :=
  let lower := stripQuery (strToLower rawURL)
  let base := getFilename lower
  let ext := getFileExtension base
  let safe := String.mk (collapseUnderscores (base.toList.map sanitizeChar))
  let safe := String.mk (trimUnderscores safe.toList)
  let safe := removeSubstring safe "_pdf"
  let safe := removeSubstring safe "_zip"
  let safe := removeSubstring safe "_txt"
  if getFileExtension safe = "" then safe ++ ext else safe

/-- Worker of `removeDuplicatesFromSlice`: `check` is the set of
strings already seen (the Go `map[string]bool`). -/
def removeDuplicatesGo (check : List String) : List String → List String
  | [] => []
  | x :: xs =>
    if x ∈ check then removeDuplicatesGo check xs
    else x :: removeDuplicatesGo (x :: check) xs

/-- Source `removeDuplicatesFromSlice`: keeps the first occurrence of
each distinct string, in order of first occurrence. -/
def removeDuplicatesFromSlice (slice : List String) : List String :=
  removeDuplicatesGo [] slice

/-! ## Link extractor

`extractPDFUrls` in the source first parses the HTML text with
`golang.org/x/net/html` (an external library) and then walks the parse
tree.  The embedding takes the parsed tree as input and models the
recursive walk `exploreHTML` exactly: an element node named `a`
contributes the trimmed value of each of its `href` attributes whose
lower-cased form contains `".pdf"`, followed by the links of its
children in document order. -/

/-- The node kinds of `golang.org/x/net/html.Node`. -/
inductive NodeType where
  | errorNode
  | textNode
  | documentNode
  | elementNode
  | commentNode
  | doctypeNode
deriving DecidableEq

/-- An HTML attribute (`html.Attribute`; the `Namespace` field is
never read by the program and is omitted). -/
structure HAttr where
  key : String
  val : String
deriving DecidableEq

/-- A parsed HTML node: kind, tag/text data, attributes, children in
document order (the source's `FirstChild`/`NextSibling` chain). -/
inductive HNode where
  | mk (ntype : NodeType) (data : String) (attrs : List HAttr) (children : List HNode)

/-- The links contributed by one node's own attribute list: for each
`href` attribute, trim the value and keep it when its lower-cased form
contains `".pdf"` (the body of the attribute loop in `exploreHTML`). -/
def nodeLinks (attrs : List HAttr) : List String :=
  attrs.filterMap (fun a =>
    if a.key = "href" then
      if strContains (strToLower (trimSpace a.val)) ".pdf" then some (trimSpace a.val)
      else none
    else none)

mutual

/-- The recursive `exploreHTML` closure: collect this node's matching
hrefs, then the children's, in document order. -/
def exploreHTML : HNode → List String
  | .mk t d attrs children =>
    (if t = NodeType.elementNode ∧ d = "a" then nodeLinks attrs else []) ++
      exploreHTMLList children

/-- The sibling loop of `exploreHTML` (`for childNode := ...`). -/
def exploreHTMLList : List HNode → List String
  | [] => []
  | n :: ns => exploreHTML n ++ exploreHTMLList ns

end

/-- Source `extractPDFUrls` after the parse step: walk the parsed tree
from the root and return every matching link. -/
def extractPDFUrls (root : HNode) : List String :=
  exploreHTML root

mutual

/-- All nodes of a tree in document (pre-)order: the node itself, then
the nodes of its children left to right. -/
def nodesPreorder : HNode → List HNode
  | .mk t d attrs children => .mk t d attrs children :: nodesPreorderList children

/-- Document-order node list of a forest. -/
def nodesPreorderList : List HNode → List HNode
  | [] => []
  | n :: ns => nodesPreorder n ++ nodesPreorderList ns

end

/-- The links a single node contributes by itself (no recursion). -/
def ownLinks : HNode → List String
  | .mk t d attrs _ =>
    if t = NodeType.elementNode ∧ d = "a" then nodeLinks attrs else []

/-- Number of `href` attributes carried by a node.  The HTML parser
never produces an element with a repeated attribute key, so parsed
trees satisfy `countHref n ≤ 1` at every node. -/
def countHref : HNode → Nat
  | .mk _ _ attrs _ => (attrs.filter (fun a => a.key == "href")).length

/-- The trimmed value of the first `href` attribute in a list, when
that value passes the case-insensitive `".pdf"` test. -/
def findHrefMatch (attrs : List HAttr) : Option String :=
  match attrs.find? (fun a => a.key == "href") with
  | some a =>
    if strContains (strToLower (trimSpace a.val)) ".pdf" then some (trimSpace a.val)
    else none
  | none => none

/-- Spec-side view of one node: the trimmed value of its first `href`
attribute when the node is an anchor and that value matches the
case-insensitive `".pdf"` test, and `none` otherwise. -/
def matchLink : HNode → Option String
  | .mk t d attrs _ =>
    if t = NodeType.elementNode ∧ d = "a" then findHrefMatch attrs else none

/-- Spec-side predicate: an anchor element carrying an `href`
attribute whose (trimmed, lower-cased) value contains `".pdf"`. -/
def isMatchingAnchor : HNode → Bool
  | .mk t d attrs _ =>
    decide (t = NodeType.elementNode ∧ d = "a") &&
      attrs.any (fun a => a.key == "href" && strContains (strToLower (trimSpace a.val)) ".pdf")

/-! ## Document fetcher

`downloadPDF` is stateful: it consults the file store (`os.Stat`),
performs one HTTP GET, and may create one file.  The embedding passes
the store and the network explicitly and returns the Go boolean
together with whether a request was issued and the resulting store. -/

/-- An HTTP response as `downloadPDF` observes it: status code,
declared `Content-Type` header, and the body as read by `io.Copy`
(`none` models a mid-stream read error). -/
structure HttpResponse where
  statusCode : Nat
  contentType : String
  body : Option (List Nat)

/-- The output store: regular files as (path, contents) entries; an
earlier entry shadows a later one with the same path. -/
structure FileSystem where
  files : List (String × List Nat)
deriving DecidableEq

/-- Source `fileExists`: the path names an existing regular file
(`os.Stat` succeeds and the entry is not a directory — the store only
holds regular files). -/
def fileExists (fs : FileSystem) (filename : String) : Bool :=
  fs.files.any (fun e => e.fst == filename)

/-- Contents of the file at a path, if any. -/
def lookupFile (fs : FileSystem) (p : String) : Option (List Nat) :=
  (fs.files.find? (fun e => e.fst == p)).map (fun e => e.snd)

/-- The environment of one `downloadPDF` call: the network
(`none` models a transport error from `http.Client.Get`), whether
`os.Create` succeeds at a path, whether `WriteTo` succeeds, and how
many bytes a failing `WriteTo` managed to put in the file. -/
structure NetEnv where
  resp : String → Option HttpResponse
  createOk : String → Bool
  writeOk : Bool
  writtenOnFail : Nat

/-- Outcome of one `downloadPDF` call: the returned boolean, whether
an HTTP request was issued, and the store afterwards. -/
structure FetchResult where
  returned : Bool
  requested : Bool
  fs : FileSystem
deriving DecidableEq

/-- Model of `filepath.Join(dir, name)` for an already-clean directory
prefix: concatenation with exactly one slash between the parts. -/
def joinPath (dir name : String) : String :=
  if dir = "" then name
  else if dir.toList.getLast? = some '/' then dir ++ name
  else dir ++ "/" ++ name

/-- Source `downloadPDF`: resolve the destination path, skip if the
file exists, GET the URL, check status 200, check the content type
contains `binary/octet-stream` or `application/pdf`, read the whole
body, reject empty bodies, then create and write the file. -/
def downloadPDF (pdfURL outputDirectory : String) (fs : FileSystem) (env : NetEnv) :
    FetchResult :=
  let safeFilename := strToLower (urlToFilename pdfURL)
  let fullFilePath := joinPath outputDirectory safeFilename
  if fileExists fs fullFilePath then
    { returned := false, requested := false, fs := fs }
  else
    match env.resp pdfURL with
    | none => { returned := false, requested := true, fs := fs }
    | some r =>
      if r.statusCode ≠ 200 then
        { returned := false, requested := true, fs := fs }
      else if !strContains r.contentType "binary/octet-stream" &&
          !strContains r.contentType "application/pdf" then
        { returned := false, requested := true, fs := fs }
      else
        match r.body with
        | none => { returned := false, requested := true, fs := fs }
        | some bytes =>
          if bytes.length = 0 then
            { returned := false, requested := true, fs := fs }
          else if !env.createOk fullFilePath then
            { returned := false, requested := true, fs := fs }
          else if !env.writeOk then
            { returned := false, requested := true,
              fs := ⟨(fullFilePath, bytes.take env.writtenOnFail) :: fs.files⟩ }
          else
            { returned := true, requested := true,
              fs := ⟨(fullFilePath, bytes) :: fs.files⟩ }

/-- Spec-side definition, written from the claim's words: keep each
element's first occurrence and drop every later duplicate. -/
def firstDedup : List String → List String
  | [] => []
  | x :: xs => x :: (firstDedup xs).filter (fun y => y != x)

/-- A character the sanitizer's stem may contain: lower-case ASCII
letter, ASCII digit, or underscore. -/
def isStemChar (c : Char) : Bool :=
  decide (('a' ≤ c ∧ c ≤ 'z') ∨ ('0' ≤ c ∧ c ≤ '9') ∨ c = '_')

/-- The intermediate `safe` value of `urlToFilename`: the cleaned
stem before the extension is re-appended. -/
def sanStem (rawURL : String) : String :=
  removeSubstring (removeSubstring (removeSubstring
    (String.mk (trimUnderscores (String.mk (collapseUnderscores
      ((getFilename (stripQuery (strToLower rawURL))).toList.map sanitizeChar))).toList))
    "_pdf") "_zip") "_txt"

/-! ## Fetcher lemmas and claims -/

/-- Master case analysis of `downloadPDF`'s effect on the store:
either the store is untouched, or the destination did not exist
beforehand, the body was fully read with a nonzero byte count, and
exactly one entry for the destination path was prepended. -/
theorem downloadPDF_store_cases (u d : String) (fs : FileSystem) (env : NetEnv) :
    (downloadPDF u d fs env).fs = fs ∨
    (fileExists fs (joinPath d (strToLower (urlToFilename u))) = false ∧
      ∃ r bytes bs, env.resp u = some r ∧ r.body = some bytes ∧ bytes.length ≠ 0 ∧
        (downloadPDF u d fs env).fs.files =
          (joinPath d (strToLower (urlToFilename u)), bs) :: fs.files) := by
  by_cases hex : fileExists fs (joinPath d (strToLower (urlToFilename u))) = true
  · left; simp [downloadPDF, hex]
  · rw [Bool.not_eq_true] at hex
    cases hr : env.resp u with
    | none => left; simp [downloadPDF, hex, hr]
    | some r =>
      by_cases h200 : r.statusCode = 200
      · by_cases hgate : (!strContains r.contentType "binary/octet-stream" &&
            !strContains r.contentType "application/pdf") = true
        · left; simp [downloadPDF, hex, hr, h200, hgate]
        · rw [Bool.not_eq_true] at hgate
          cases hb : r.body with
          | none => left; simp [downloadPDF, hex, hr, h200, hgate, hb]
          | some bytes =>
            by_cases hlen : bytes.length = 0
            · left; simp [downloadPDF, hex, hr, h200, hgate, hb, hlen]
            · by_cases hcr : env.createOk (joinPath d (strToLower (urlToFilename u))) = true
              · by_cases hw : env.writeOk = true
                · right
                  refine ⟨hex, r, bytes, bytes, rfl, hb, hlen, ?_⟩
                  simp [downloadPDF, hex, hr, h200, hgate, hb, hlen, hcr, hw]
                · rw [Bool.not_eq_true] at hw
                  right
                  refine ⟨hex, r, bytes, bytes.take env.writtenOnFail, rfl, hb, hlen, ?_⟩
                  simp [downloadPDF, hex, hr, h200, hgate, hb, hlen, hcr, hw]
              · rw [Bool.not_eq_true] at hcr
                left; simp [downloadPDF, hex, hr, h200, hgate, hb, hlen, hcr]
      · left; simp [downloadPDF, hex, hr, h200]

/-- C1: if the destination file already exists, `downloadPDF` performs
no HTTP request, writes nothing, and reports the skipped outcome
(returns `false`); and no call to `downloadPDF` ever changes the
contents stored at a pre-existing path. -/
theorem downloadPDF_skips_existing (pdfURL outputDirectory : String)
    (fs : FileSystem) (env : NetEnv) :
    (fileExists fs (joinPath outputDirectory (strToLower (urlToFilename pdfURL))) = true →
      downloadPDF pdfURL outputDirectory fs env =
        { returned := false, requested := false, fs := fs }) ∧
    (∀ p, fileExists fs p = true →
      lookupFile (downloadPDF pdfURL outputDirectory fs env).fs p = lookupFile fs p) := by
  constructor
  · intro hex
    simp [downloadPDF, hex]
  · intro p hp
    rcases downloadPDF_store_cases pdfURL outputDirectory fs env with h | ⟨hex, r, bytes, bs, _, _, _, hfs⟩
    · rw [h]
    · have hne : (joinPath outputDirectory (strToLower (urlToFilename pdfURL)) == p) = false := by
        rw [beq_eq_false_iff_ne]
        intro hEq
        rw [hEq] at hex
        rw [hp] at hex
        exact Bool.true_eq_false.mp hex
      simp [lookupFile, hfs, List.find?, hne]

/-- Concrete instance of C1: an existing `PDFs/manual.pdf` is skipped
without a request and its contents are untouched. -/
theorem downloadPDF_skips_existing_witness :
    downloadPDF "manual.pdf" "PDFs/" ⟨[("PDFs/manual.pdf", [37])]⟩
        ⟨fun _ => none, fun _ => true, true, 0⟩ =
      { returned := false, requested := false, fs := ⟨[("PDFs/manual.pdf", [37])]⟩ } ∧
    lookupFile (downloadPDF "manual.pdf" "PDFs/" ⟨[("PDFs/manual.pdf", [37])]⟩
        ⟨fun _ => none, fun _ => true, true, 0⟩).fs "PDFs/manual.pdf" =
      lookupFile ⟨[("PDFs/manual.pdf", [37])]⟩ "PDFs/manual.pdf" :=
  ⟨(downloadPDF_skips_existing "manual.pdf" "PDFs/" ⟨[("PDFs/manual.pdf", [37])]⟩
      ⟨fun _ => none, fun _ => true, true, 0⟩).1 (by decide),
   (downloadPDF_skips_existing "manual.pdf" "PDFs/" ⟨[("PDFs/manual.pdf", [37])]⟩
      ⟨fun _ => none, fun _ => true, true, 0⟩).2 "PDFs/manual.pdf" (by decide)⟩

/-- Helper shared by the content-type claims: when the response's
content type contains neither marker, the call fails and the store is
untouched (whatever the status code — a non-200 status fails even
earlier). -/
theorem downloadPDF_gate_fails (pdfURL outputDirectory : String)
    (fs : FileSystem) (env : NetEnv) (r : HttpResponse)
    (hr : env.resp pdfURL = some r)
    (hct1 : strContains r.contentType "binary/octet-stream" = false)
    (hct2 : strContains r.contentType "application/pdf" = false) :
    (downloadPDF pdfURL outputDirectory fs env).returned = false ∧
    (downloadPDF pdfURL outputDirectory fs env).fs = fs := by
  by_cases hex : fileExists fs (joinPath outputDirectory (strToLower (urlToFilename pdfURL))) = true
  · constructor <;> simp [downloadPDF, hex]
  · rw [Bool.not_eq_true] at hex
    by_cases h200 : r.statusCode = 200
    · constructor <;> simp [downloadPDF, hex, hr, h200, hct1, hct2]
    · constructor <;> simp [downloadPDF, hex, hr, h200]

/-- C2: a 200 response whose declared content type contains neither
`application/pdf` nor `binary/octet-stream` makes `downloadPDF` report
failure without touching the store, whatever the body holds. -/
theorem downloadPDF_content_type_gate (pdfURL outputDirectory : String)
    (fs : FileSystem) (env : NetEnv) (r : HttpResponse)
    (hr : env.resp pdfURL = some r) (h200 : r.statusCode = 200)
    (hct1 : strContains r.contentType "binary/octet-stream" = false)
    (hct2 : strContains r.contentType "application/pdf" = false) :
    (downloadPDF pdfURL outputDirectory fs env).returned = false ∧
    (downloadPDF pdfURL outputDirectory fs env).fs = fs :=
  downloadPDF_gate_fails pdfURL outputDirectory fs env r hr hct1 hct2

/-- Concrete instance of C2: a 200 `text/html` response with a
non-empty body produces no file and reports failure. -/
theorem downloadPDF_content_type_gate_witness :
    (downloadPDF "u" "PDFs/" ⟨[]⟩
        ⟨fun _ => some ⟨200, "text/html", some [104, 105]⟩, fun _ => true, true, 0⟩).returned
        = false ∧
    (downloadPDF "u" "PDFs/" ⟨[]⟩
        ⟨fun _ => some ⟨200, "text/html", some [104, 105]⟩, fun _ => true, true, 0⟩).fs
        = ⟨[]⟩ :=
  downloadPDF_content_type_gate "u" "PDFs/" ⟨[]⟩
    ⟨fun _ => some ⟨200, "text/html", some [104, 105]⟩, fun _ => true, true, 0⟩
    ⟨200, "text/html", some [104, 105]⟩ rfl rfl (by decide) (by decide)

/-- C5: a 200 response with an acceptable content type but an empty
(zero-byte) body makes `downloadPDF` report failure and leaves the
store untouched. -/
theorem downloadPDF_zero_byte_gate (pdfURL outputDirectory : String)
    (fs : FileSystem) (env : NetEnv) (r : HttpResponse) (bs : List Nat)
    (hr : env.resp pdfURL = some r) (h200 : r.statusCode = 200)
    (hct : strContains r.contentType "binary/octet-stream" = true ∨
      strContains r.contentType "application/pdf" = true)
    (hbody : r.body = some bs) (hlen : bs.length = 0) :
    (downloadPDF pdfURL outputDirectory fs env).returned = false ∧
    (downloadPDF pdfURL outputDirectory fs env).fs = fs := by
  by_cases hex : fileExists fs (joinPath outputDirectory (strToLower (urlToFilename pdfURL))) = true
  · constructor <;> simp [downloadPDF, hex]
  · rw [Bool.not_eq_true] at hex
    rcases hct with hct | hct <;>
      constructor <;> simp [downloadPDF, hex, hr, h200, hct, hbody, hlen]

/-- Concrete instance of C5: a 200 `application/pdf` response with an
empty body produces no file. -/
theorem downloadPDF_zero_byte_gate_witness :
    (downloadPDF "u" "PDFs/" ⟨[]⟩
        ⟨fun _ => some ⟨200, "application/pdf", some []⟩, fun _ => true, true, 0⟩).returned
        = false ∧
    (downloadPDF "u" "PDFs/" ⟨[]⟩
        ⟨fun _ => some ⟨200, "application/pdf", some []⟩, fun _ => true, true, 0⟩).fs
        = ⟨[]⟩ :=
  downloadPDF_zero_byte_gate "u" "PDFs/" ⟨[]⟩
    ⟨fun _ => some ⟨200, "application/pdf", some []⟩, fun _ => true, true, 0⟩
    ⟨200, "application/pdf", some []⟩ [] rfl rfl (Or.inr (by decide)) rfl rfl

/-- C6: the destination file comes into existence only after the whole
body has been read with a nonzero byte count, and a body read failure
leaves the store exactly as it was. -/
theorem downloadPDF_read_before_create (pdfURL outputDirectory : String)
    (fs : FileSystem) (env : NetEnv) :
    ((downloadPDF pdfURL outputDirectory fs env).fs.files ≠ fs.files →
      ∃ r bytes, env.resp pdfURL = some r ∧ r.body = some bytes ∧ 0 < bytes.length) ∧
    (∀ r, env.resp pdfURL = some r → r.body = none →
      (downloadPDF pdfURL outputDirectory fs env).fs = fs) := by
  constructor
  · intro hne
    rcases downloadPDF_store_cases pdfURL outputDirectory fs env with h | ⟨_, r, bytes, bs, hr, hb, hlen, _⟩
    · exact absurd (congrArg FileSystem.files h) hne
    · exact ⟨r, bytes, hr, hb, Nat.pos_of_ne_zero hlen⟩
  · intro r hr hbody
    rcases downloadPDF_store_cases pdfURL outputDirectory fs env with h | ⟨_, r', bytes, bs, hr', hb, _, _⟩
    · exact h
    · rw [hr] at hr'
      cases Option.some.inj hr'
      rw [hbody] at hb
      exact absurd hb (by simp)

/-- Concrete instance of C6: a mid-stream read failure on a 200
`application/pdf` response leaves the (empty) store empty. -/
theorem downloadPDF_read_before_create_witness :
    (downloadPDF "u" "PDFs/" ⟨[]⟩
        ⟨fun _ => some ⟨200, "application/pdf", none⟩, fun _ => true, true, 0⟩).fs = ⟨[]⟩ :=
  (downloadPDF_read_before_create "u" "PDFs/" ⟨[]⟩
      ⟨fun _ => some ⟨200, "application/pdf", none⟩, fun _ => true, true, 0⟩).2
    ⟨200, "application/pdf", none⟩ rfl rfl

/-- C9: the content-type gate accepts only headers containing
`binary/octet-stream` or `application/pdf`; in particular the standard
`application/octet-stream` is rejected even when the body is a valid
PDF, with no file written. -/
theorem downloadPDF_octet_stream_rejected (pdfURL outputDirectory : String)
    (fs : FileSystem) (env : NetEnv) (r : HttpResponse)
    (hr : env.resp pdfURL = some r) :
    ((downloadPDF pdfURL outputDirectory fs env).returned = true →
      (strContains r.contentType "binary/octet-stream" ||
        strContains r.contentType "application/pdf") = true) ∧
    (r.contentType = "application/octet-stream" →
      (downloadPDF pdfURL outputDirectory fs env).returned = false ∧
      (downloadPDF pdfURL outputDirectory fs env).fs = fs) := by
  constructor
  · intro hret
    by_cases hgate : (strContains r.contentType "binary/octet-stream" ||
        strContains r.contentType "application/pdf") = true
    · exact hgate
    · exfalso
      rw [Bool.not_eq_true, Bool.or_eq_false_iff] at hgate
      obtain ⟨hct1, hct2⟩ := hgate
      have := (downloadPDF_gate_fails pdfURL outputDirectory fs env r hr hct1 hct2).1
      rw [hret] at this
      exact Bool.true_eq_false.mp this
  · intro hct
    exact downloadPDF_gate_fails pdfURL outputDirectory fs env r hr
      (by rw [hct]; decide) (by rw [hct]; decide)

/-- Concrete instance of C9: a 200 `application/octet-stream` response
carrying a valid PDF body (`%PDF`) is rejected and writes nothing. -/
theorem downloadPDF_octet_stream_rejected_witness :
    (downloadPDF "u" "PDFs/" ⟨[]⟩
        ⟨fun _ => some ⟨200, "application/octet-stream", some [37, 80, 68, 70]⟩,
          fun _ => true, true, 0⟩).returned = false ∧
    (downloadPDF "u" "PDFs/" ⟨[]⟩
        ⟨fun _ => some ⟨200, "application/octet-stream", some [37, 80, 68, 70]⟩,
          fun _ => true, true, 0⟩).fs = ⟨[]⟩ :=
  (downloadPDF_octet_stream_rejected "u" "PDFs/" ⟨[]⟩
      ⟨fun _ => some ⟨200, "application/octet-stream", some [37, 80, 68, 70]⟩,
        fun _ => true, true, 0⟩
      ⟨200, "application/octet-stream", some [37, 80, 68, 70]⟩ rfl).2 rfl

/-! ## Deduplication claims -/

theorem mem_removeDuplicatesGo (check l : List String) (x : String) :
    x ∈ removeDuplicatesGo check l ↔ x ∈ l ∧ x ∉ check := by
  induction l generalizing check with
  | nil => simp [removeDuplicatesGo]
  | cons y ys ih =>
    by_cases hy : y ∈ check
    · rw [removeDuplicatesGo, if_pos hy, ih]
      constructor
      · rintro ⟨hx, hnc⟩
        exact ⟨List.mem_cons_of_mem _ hx, hnc⟩
      · rintro ⟨hx, hnc⟩
        rcases List.mem_cons.mp hx with h | h
        · subst h
          exact absurd hy hnc
        · exact ⟨h, hnc⟩
    · rw [removeDuplicatesGo, if_neg hy]
      constructor
      · intro hx
        rcases List.mem_cons.mp hx with h | h
        · subst h
          exact ⟨List.mem_cons_self _ _, hy⟩
        · obtain ⟨hys, hnc⟩ := (ih (y :: check)).mp h
          exact ⟨List.mem_cons_of_mem _ hys,
            fun hc => hnc (List.mem_cons_of_mem _ hc)⟩
      · rintro ⟨hx, hnc⟩
        rcases List.mem_cons.mp hx with h | h
        · subst h
          exact List.mem_cons_self _ _
        · by_cases hxy : x = y
          · subst hxy
            exact List.mem_cons_self _ _
          · refine List.mem_cons_of_mem _ ((ih (y :: check)).mpr ⟨h, ?_⟩)
            intro hc
            rcases List.mem_cons.mp hc with h1 | h1
            · exact hxy h1
            · exact hnc h1

theorem nodup_removeDuplicatesGo (check l : List String) :
    (removeDuplicatesGo check l).Nodup := by
  induction l generalizing check with
  | nil => simp [removeDuplicatesGo]
  | cons y ys ih =>
    by_cases hy : y ∈ check
    · simpa [removeDuplicatesGo, hy] using ih check
    · rw [removeDuplicatesGo, if_neg hy]
      refine List.nodup_cons.mpr ⟨fun hmem => ?_, ih _⟩
      exact ((mem_removeDuplicatesGo _ _ _).mp hmem).2 (List.mem_cons_self _ _)

theorem sublist_removeDuplicatesGo (check l : List String) :
    List.Sublist (removeDuplicatesGo check l) l := by
  induction l generalizing check with
  | nil => simp [removeDuplicatesGo]
  | cons y ys ih =>
    by_cases hy : y ∈ check
    · rw [removeDuplicatesGo, if_pos hy]
      exact (ih check).trans (List.sublist_cons_self y ys)
    · rw [removeDuplicatesGo, if_neg hy]
      exact List.Sublist.cons₂ y (ih _)

theorem removeDuplicatesGo_eq_filter (check l : List String) :
    removeDuplicatesGo check l = (firstDedup l).filter (fun z => decide (z ∉ check)) := by
  induction l generalizing check with
  | nil => simp [removeDuplicatesGo, firstDedup]
  | cons y ys ih =>
    by_cases hy : y ∈ check
    · rw [removeDuplicatesGo, if_pos hy, firstDedup, List.filter_cons]
      have hyc : (decide (y ∉ check)) = false := by simp [hy]
      rw [hyc, if_neg (by simp), ih, List.filter_filter]
      refine List.filter_congr fun z _ => ?_
      by_cases hz : z ∈ check
      · simp [hz]
      · have hzy : z ≠ y := fun h => hz (h ▸ hy)
        simp [hz, hzy]
    · rw [removeDuplicatesGo, if_neg hy, firstDedup, List.filter_cons]
      have hyc : (decide (y ∉ check)) = true := by simp [hy]
      rw [hyc, if_pos (by simp), ih, List.filter_filter]
      refine congrArg (y :: ·) (List.filter_congr fun z _ => ?_)
      by_cases hz : z ∈ check
      · simp [hz]
      · by_cases hzy : z = y <;> simp [hz, hzy]

theorem removeDuplicatesGo_of_nodup (check l : List String)
    (hdisj : ∀ x ∈ l, x ∉ check) (hnd : l.Nodup) :
    removeDuplicatesGo check l = l := by
  induction l generalizing check with
  | nil => simp [removeDuplicatesGo]
  | cons y ys ih =>
    rw [removeDuplicatesGo, if_neg (hdisj y (List.mem_cons_self _ _))]
    refine congrArg (y :: ·) (ih _ ?_ (List.nodup_cons.mp hnd).2)
    intro x hx
    rw [List.mem_cons]
    rintro (h | h)
    · exact (List.nodup_cons.mp hnd).1 (h ▸ hx)
    · exact hdisj x (List.mem_cons_of_mem _ hx) h

/-- C7: `removeDuplicatesFromSlice` returns pairwise-distinct elements,
equals the first-occurrence deduplication of its input (so it keeps the
first occurrence of each distinct element, in first-occurrence order,
as an order-preserving sub-sequence with the same members), and is
idempotent. -/
theorem removeDuplicatesFromSlice_spec (l : List String) :
    (removeDuplicatesFromSlice l).Nodup ∧
    removeDuplicatesFromSlice l = firstDedup l ∧
    (∀ x, x ∈ removeDuplicatesFromSlice l ↔ x ∈ l) ∧
    List.Sublist (removeDuplicatesFromSlice l) l ∧
    removeDuplicatesFromSlice (removeDuplicatesFromSlice l) =
      removeDuplicatesFromSlice l := by
  refine ⟨nodup_removeDuplicatesGo [] l, ?_, ?_, sublist_removeDuplicatesGo [] l, ?_⟩
  · rw [removeDuplicatesFromSlice, removeDuplicatesGo_eq_filter]
    exact List.filter_eq_self.mpr (fun a _ => by simp)
  · intro x
    rw [removeDuplicatesFromSlice, mem_removeDuplicatesGo]
    simp
  · exact removeDuplicatesGo_of_nodup [] _ (by simp)
      (nodup_removeDuplicatesGo [] l)

/-! ## Sanitizer claims -/

theorem isStemChar_sanitizeChar (c : Char) : isStemChar (sanitizeChar c) = true := by
  by_cases h : ('a' ≤ c ∧ c ≤ 'z') ∨ ('0' ≤ c ∧ c ≤ '9')
  · rw [sanitizeChar, if_pos h, isStemChar, decide_eq_true_eq]
    tauto
  · rw [sanitizeChar, if_neg h]
    decide

theorem mem_collapseUnderscores : ∀ (l : List Char) (c : Char),
    c ∈ collapseUnderscores l → c ∈ l
  | [], c, h => by simpa [collapseUnderscores] using h
  | [c0], c, h => by simpa [collapseUnderscores] using h
  | c1 :: c2 :: cs, c, h => by
    rw [collapseUnderscores] at h
    split at h
    · exact List.mem_cons_of_mem _ (mem_collapseUnderscores (c2 :: cs) c h)
    · rcases List.mem_cons.mp h with h1 | h1
      · subst h1
        exact List.mem_cons_self _ _
      · exact List.mem_cons_of_mem _ (mem_collapseUnderscores (c2 :: cs) c h1)

theorem mem_dropWhileChar (p : Char → Bool) : ∀ (l : List Char) (c : Char),
    c ∈ l.dropWhile p → c ∈ l
  | [], _, h => by simpa using h
  | c0 :: cs, c, h => by
    rw [List.dropWhile_cons] at h
    split at h
    · exact List.mem_cons_of_mem _ (mem_dropWhileChar p cs c h)
    · exact h

theorem mem_trimUnderscores (l : List Char) (c : Char)
    (h : c ∈ trimUnderscores l) : c ∈ l := by
  rw [trimUnderscores] at h
  rw [List.mem_reverse] at h
  have h1 := mem_dropWhileChar _ _ _ h
  rw [List.mem_reverse] at h1
  exact mem_dropWhileChar _ _ _ h1

theorem mem_removeSubAux (pat : List Char) : ∀ (s : List Char) (k : Nat) (c : Char),
    c ∈ removeSubAux pat s k → c ∈ s
  | [], _, c, h => by simpa [removeSubAux] using h
  | c0 :: cs, 0, c, h => by
    rw [removeSubAux] at h
    split at h
    · exact List.mem_cons_of_mem _ (mem_removeSubAux pat cs _ c h)
    · rcases List.mem_cons.mp h with h1 | h1
      · subst h1
        exact List.mem_cons_self _ _
      · exact List.mem_cons_of_mem _ (mem_removeSubAux pat cs 0 c h1)
  | c0 :: cs, k + 1, c, h => List.mem_cons_of_mem _ (mem_removeSubAux pat cs k c h)

theorem mem_takeWhileChar (p : Char → Bool) : ∀ (l : List Char) (c : Char),
    c ∈ l.takeWhile p → c ∈ l ∧ p c = true
  | [], _, h => by simp at h
  | c0 :: cs, c, h => by
    rw [List.takeWhile_cons] at h
    split at h
    · rcases List.mem_cons.mp h with h1 | h1
      · subst h1
        exact ⟨List.mem_cons_self _ _, by assumption⟩
      · obtain ⟨hm, hp⟩ := mem_takeWhileChar p cs c h1
        exact ⟨List.mem_cons_of_mem _ hm, hp⟩
    · simp at h

theorem takeWhileChar_full (p : Char → Bool) : ∀ (l : List Char),
    (∀ c ∈ l, p c = true) → l.takeWhile p = l
  | [], _ => rfl
  | c0 :: cs, h => by
    rw [List.takeWhile_cons, if_pos (h c0 (List.mem_cons_self _ _))]
    exact congrArg (c0 :: ·) (takeWhileChar_full p cs
      (fun c hc => h c (List.mem_cons_of_mem _ hc)))

/-- In a dot-free string the extension is empty. -/
theorem goFilepathExt_of_no_dot (s : String) (h : ∀ c ∈ s.toList, c ≠ '.') :
    goFilepathExt s = "" := by
  rw [goFilepathExt]
  have hseg : ∀ c ∈ s.toList.reverse.takeWhile (fun c => c != '/'), (c != '.') = true := by
    intro c hc
    have hm := (mem_takeWhileChar _ _ _ hc).1
    rw [List.mem_reverse] at hm
    simpa using h c hm
  rw [takeWhileChar_full _ _ hseg]
  simp

/-- The extension is empty or a dot followed by dot-free characters. -/
theorem goFilepathExt_shape (s : String) :
    goFilepathExt s = "" ∨
      ∃ pre, (goFilepathExt s).toList = '.' :: pre ∧ '.' ∉ pre := by
  rw [goFilepathExt]
  split
  · exact Or.inl rfl
  · refine Or.inr ⟨(s.toList.reverse.takeWhile (fun c => c != '/')).takeWhile
      (fun c => c != '.') |>.reverse, rfl, ?_⟩
    intro hmem
    rw [List.mem_reverse] at hmem
    have := (mem_takeWhileChar _ _ _ hmem).2
    simp at this

/-- C3 as stated is false: the extension captured from the original
basename can carry characters outside `[a-z0-9_.]` into the output, as
for `https://example.com/file.p-f`, whose sanitized name contains a
hyphen. -/
theorem urlToFilename_alphabet_counterexample :
    urlToFilename "https://example.com/file.p-f" = "file_p_f.p-f" ∧
    ¬ (∀ c ∈ (urlToFilename "https://example.com/file.p-f").toList,
        isStemChar c = true ∨ c = '.') := by
  constructor
  · decide
  · decide

theorem strToList_append (a b : String) : (a ++ b).toList = a.toList ++ b.toList := by
  cases a
  cases b
  rfl

theorem mem_sanStem (rawURL : String) :
    ∀ c ∈ (sanStem rawURL).toList, isStemChar c = true := by
  intro c hc
  have h1 := mem_removeSubAux _ _ _ _ hc
  have h2 := mem_removeSubAux _ _ _ _ h1
  have h3 := mem_removeSubAux _ _ _ _ h2
  have h4 := mem_trimUnderscores _ _ h3
  have h5 := mem_collapseUnderscores _ _ h4
  obtain ⟨x, _, hx⟩ := List.mem_map.mp h5
  exact hx ▸ isStemChar_sanitizeChar x

theorem sanStem_no_dot (rawURL : String) :
    ∀ c ∈ (sanStem rawURL).toList, c ≠ '.' := by
  intro c hc hdot
  have := mem_sanStem rawURL c hc
  rw [hdot] at this
  exact absurd this (by decide)

theorem ext_count_le_one (s : String) :
    (getFileExtension s).toList.count '.' ≤ 1 := by
  rw [getFileExtension]
  rcases goFilepathExt_shape s with h | ⟨pre, hp, hnp⟩
  · rw [h]
    simp
  · rw [hp, List.count_cons_self, List.count_eq_zero.mpr hnp]

/-- `urlToFilename` always splits as the cleaned stem followed by the
captured extension (the cleaned stem never has a dot, so the extension
is always re-appended). -/
theorem urlToFilename_eq_append (rawURL : String) :
    urlToFilename rawURL =
      sanStem rawURL ++ getFileExtension (getFilename (stripQuery (strToLower rawURL))) := by
  have hext : getFileExtension (sanStem rawURL) = "" := by
    rw [getFileExtension]
    exact goFilepathExt_of_no_dot _ (sanStem_no_dot rawURL)
  show (if getFileExtension (sanStem rawURL) = "" then
      sanStem rawURL ++ getFileExtension (getFilename (stripQuery (strToLower rawURL)))
    else sanStem rawURL) = _
  rw [if_pos hext]

/-- C3 amended: the output splits as a stem followed by the captured
extension; every stem character is a lower-case alphanumeric or an
underscore, and the whole output contains at most one dot (the
extension's leading dot).  The extension itself may carry arbitrary
non-`?` characters of the original basename's final dot-segment. -/
theorem urlToFilename_alphabet_amended (rawURL : String) :
    ∃ stem : List Char,
      (urlToFilename rawURL).toList =
        stem ++ (getFileExtension (getFilename (stripQuery (strToLower rawURL)))).toList ∧
      (∀ c ∈ stem, isStemChar c = true) ∧
      (urlToFilename rawURL).toList.count '.' ≤ 1 := by
  refine ⟨(sanStem rawURL).toList, ?_, mem_sanStem rawURL, ?_⟩
  · rw [urlToFilename_eq_append, strToList_append]
  · rw [urlToFilename_eq_append, strToList_append, List.count_append]
    have h1 : (sanStem rawURL).toList.count '.' = 0 :=
      List.count_eq_zero.mpr (fun hm => sanStem_no_dot rawURL _ hm rfl)
    have h2 := ext_count_le_one (getFilename (stripQuery (strToLower rawURL)))
    omega

/-- C8: the three representative URLs sanitize deterministically to
`radio_guide.pdf`, `file_name_with_dots.pdf` and `noext`; each output
is lower-case alphanumerics and underscores plus at most one
dot-delimited extension and contains none of the literal substrings
`_pdf`, `_zip`, `_txt`. -/
theorem urlToFilename_representative_urls :
    urlToFilename "https://example.com/manuals/Radio-Guide.PDF?v=2" = "radio_guide.pdf" ∧
    urlToFilename "https://example.com/a/b/file.name.with.dots.pdf" =
      "file_name_with_dots.pdf" ∧
    urlToFilename "https://example.com/noext" = "noext" ∧
    urlToFilename "https://example.com/manuals/Radio-Guide.PDF?v=2" =
      urlToFilename "https://example.com/manuals/Radio-Guide.PDF?v=2" ∧
    urlToFilename "https://example.com/a/b/file.name.with.dots.pdf" =
      urlToFilename "https://example.com/a/b/file.name.with.dots.pdf" ∧
    urlToFilename "https://example.com/noext" = urlToFilename "https://example.com/noext" ∧
    (∀ u ∈ ["radio_guide.pdf", "file_name_with_dots.pdf", "noext"],
      (∀ c ∈ u.toList, isStemChar c = true ∨ c = '.') ∧
      u.toList.count '.' ≤ 1 ∧
      strContains u "_pdf" = false ∧
      strContains u "_zip" = false ∧
      strContains u "_txt" = false) := by
  refine ⟨by decide, by decide, by decide, rfl, rfl, rfl, by decide⟩

/-! ## Extractor claims -/

mutual

theorem exploreHTML_eq_flatMap (n : HNode) :
    exploreHTML n = (nodesPreorder n).flatMap ownLinks := by
  match n with
  | .mk t d attrs children =>
    rw [exploreHTML, nodesPreorder, List.flatMap_cons,
      exploreHTMLList_eq_flatMap children]
    rfl

theorem exploreHTMLList_eq_flatMap (ns : List HNode) :
    exploreHTMLList ns = (nodesPreorderList ns).flatMap ownLinks := by
  match ns with
  | [] => rfl
  | n :: rest =>
    rw [exploreHTMLList, nodesPreorderList, List.flatMap_append,
      exploreHTML_eq_flatMap n, exploreHTMLList_eq_flatMap rest]

end

theorem flatMap_toList_eq_filterMap {α β : Type} (l : List α)
    (f : α → List β) (g : α → Option β) (h : ∀ x ∈ l, f x = (g x).toList) :
    l.flatMap f = l.filterMap g := by
  induction l with
  | nil => rfl
  | cons a rest ih =>
    rw [List.flatMap_cons, h a (List.mem_cons_self _ _), List.filterMap_cons]
    cases g a with
    | none =>
      simp only [Option.toList, List.nil_append]
      exact ih (fun x hx => h x (List.mem_cons_of_mem _ hx))
    | some b =>
      simp only [Option.toList, List.singleton_append, List.cons_append,
        List.nil_append]
      exact congrArg (b :: ·) (ih (fun x hx => h x (List.mem_cons_of_mem _ hx)))

theorem length_filterMap_eq_length_filter {α β : Type} (l : List α)
    (g : α → Option β) :
    (l.filterMap g).length = (l.filter (fun x => (g x).isSome)).length := by
  induction l with
  | nil => rfl
  | cons a rest ih =>
    rw [List.filterMap_cons, List.filter_cons]
    cases hg : g a <;> simp [hg, ih]

theorem hrefFilter_le_one_rest (a : HAttr) (rest : List HAttr)
    (h : ((a :: rest).filter (fun b => b.key == "href")).length ≤ 1)
    (hk : (a.key == "href") = true) :
    ∀ b ∈ rest, (b.key == "href") = false := by
  intro b hb
  by_contra hc
  rw [Bool.not_eq_false] at hc
  have h2 : 2 ≤ ((a :: rest).filter (fun b => b.key == "href")).length := by
    rw [List.filter_cons, if_pos hk]
    have hmem : b ∈ rest.filter (fun b => b.key == "href") :=
      List.mem_filter.mpr ⟨hb, hc⟩
    have := List.length_pos.mpr (List.ne_nil_of_mem hmem)
    simp only [List.length_cons]
    omega
  omega

theorem nodeLinks_of_at_most_one (attrs : List HAttr) :
    (attrs.filter (fun a => a.key == "href")).length ≤ 1 →
    nodeLinks attrs = (findHrefMatch attrs).toList := by
  induction attrs with
  | nil => intro _; rfl
  | cons a rest ih =>
    intro h
    by_cases hk : a.key = "href"
    · have hpred : (a.key == "href") = true := by simp [hk]
      have hrest := hrefFilter_le_one_rest a rest h hpred
      have hnone : nodeLinks rest = [] := by
        rw [nodeLinks, List.filterMap_eq_nil_iff]
        intro b hb
        have hbk : ¬ b.key = "href" := by
          have := hrest b hb
          simpa [beq_eq_false_iff_ne] using this
        rw [if_neg hbk]
      have hfind : (a :: rest).find? (fun b => b.key == "href") = some a :=
        List.find?_cons_of_pos rest hpred
      rw [nodeLinks] at hnone ⊢
      rw [List.filterMap_cons, if_pos hk, findHrefMatch, hfind, hnone]
      by_cases hm : strContains (strToLower (trimSpace a.val)) ".pdf" = true
      · simp [hm]
      · rw [Bool.not_eq_true] at hm
        simp [hm]
    · have hpred : (a.key == "href") = false := by simp [hk]
      have hlen : (rest.filter (fun b => b.key == "href")).length ≤ 1 := by
        rw [List.filter_cons, if_neg (by simp [hpred])] at h
        exact h
      have hfind : (a :: rest).find? (fun b => b.key == "href") =
          rest.find? (fun b => b.key == "href") :=
        List.find?_cons_of_neg rest (by simp [hpred])
      rw [nodeLinks, List.filterMap_cons, if_neg hk, findHrefMatch, hfind]
      rw [nodeLinks] at ih
      exact ih hlen

theorem ownLinks_eq_matchLink (n : HNode) (h : countHref n ≤ 1) :
    ownLinks n = (matchLink n).toList := by
  rcases n with ⟨t, d, attrs, cs⟩
  rw [countHref] at h
  by_cases ha : t = NodeType.elementNode ∧ d = "a"
  · rw [ownLinks, if_pos ha, matchLink, if_pos ha]
    exact nodeLinks_of_at_most_one attrs h
  · rw [ownLinks, if_neg ha, matchLink, if_neg ha]
    rfl

theorem find_match_isSome_eq_any (attrs : List HAttr) :
    (attrs.filter (fun a => a.key == "href")).length ≤ 1 →
    (findHrefMatch attrs).isSome =
      attrs.any (fun a => a.key == "href" &&
        strContains (strToLower (trimSpace a.val)) ".pdf") := by
  induction attrs with
  | nil => intro _; rfl
  | cons a rest ih =>
    intro h
    by_cases hk : (a.key == "href") = true
    · have hrest := hrefFilter_le_one_rest a rest h hk
      have hanyrest : (rest.any (fun a => a.key == "href" &&
          strContains (strToLower (trimSpace a.val)) ".pdf")) = false := by
        rw [List.any_eq_false]
        intro b hb
        rw [hrest b hb]
        simp
      have hfind : (a :: rest).find? (fun b => b.key == "href") = some a :=
        List.find?_cons_of_pos rest hk
      rw [findHrefMatch, hfind, List.any_cons, hanyrest, Bool.or_false, hk,
        Bool.true_and]
      by_cases hm : strContains (strToLower (trimSpace a.val)) ".pdf" = true
      · simp [hm]
      · rw [Bool.not_eq_true] at hm
        simp [hm]
    · rw [Bool.not_eq_true] at hk
      have hlen : (rest.filter (fun b => b.key == "href")).length ≤ 1 := by
        rw [List.filter_cons, if_neg (by simp [hk])] at h
        exact h
      have hfind : (a :: rest).find? (fun b => b.key == "href") =
          rest.find? (fun b => b.key == "href") :=
        List.find?_cons_of_neg rest (by simp [hk])
      rw [findHrefMatch, hfind, List.any_cons, hk, Bool.false_and, Bool.false_or]
      exact ih hlen

theorem matchLink_isSome_eq (n : HNode) (h : countHref n ≤ 1) :
    (matchLink n).isSome = isMatchingAnchor n := by
  rcases n with ⟨t, d, attrs, cs⟩
  rw [countHref] at h
  by_cases ha : t = NodeType.elementNode ∧ d = "a"
  · rw [matchLink, if_pos ha, isMatchingAnchor, decide_eq_true ha, Bool.true_and]
    exact find_match_isSome_eq_any attrs h
  · rw [matchLink, if_neg ha, isMatchingAnchor]
    have hd : (decide (t = NodeType.elementNode ∧ d = "a")) = false := by
      simpa using ha
    rw [hd, Bool.false_and]
    rfl

/-- C4: on any parsed tree whose elements carry at most one `href`
attribute each (as the HTML parser guarantees), `extractPDFUrls`
returns exactly the (trimmed) href values of the matching anchors, in
document order, one link per matching anchor at any nesting depth. -/
theorem extractPDFUrls_matching_anchors (root : HNode)
    (hdup : ∀ n ∈ nodesPreorder root, countHref n ≤ 1) :
    extractPDFUrls root = (nodesPreorder root).filterMap matchLink ∧
    (extractPDFUrls root).length =
      ((nodesPreorder root).filter isMatchingAnchor).length := by
  have heq : extractPDFUrls root = (nodesPreorder root).filterMap matchLink := by
    rw [extractPDFUrls, exploreHTML_eq_flatMap]
    exact flatMap_toList_eq_filterMap _ _ _
      (fun n hn => ownLinks_eq_matchLink n (hdup n hn))
  refine ⟨heq, ?_⟩
  rw [heq, length_filterMap_eq_length_filter]
  exact congrArg List.length
    (List.filter_congr (fun n hn => matchLink_isSome_eq n (hdup n hn)))

/-- Concrete instance of C4: a document with two matching anchors (one
upper-case `.PDF`, one query-decorated `.Pdf`) at different depths and
one non-matching anchor yields exactly those two links in document
order. -/
theorem extractPDFUrls_matching_anchors_witness :
    extractPDFUrls (HNode.mk .documentNode "" []
        [HNode.mk .elementNode "html" []
          [HNode.mk .elementNode "body" []
            [HNode.mk .elementNode "a" [⟨"href", "Manual.PDF"⟩] [],
             HNode.mk .elementNode "div" []
               [HNode.mk .elementNode "a" [⟨"href", "guide.Pdf?v=1"⟩] [],
                HNode.mk .elementNode "a" [⟨"href", "page.html"⟩] []]]]]) =
      (nodesPreorder (HNode.mk .documentNode "" []
        [HNode.mk .elementNode "html" []
          [HNode.mk .elementNode "body" []
            [HNode.mk .elementNode "a" [⟨"href", "Manual.PDF"⟩] [],
             HNode.mk .elementNode "div" []
               [HNode.mk .elementNode "a" [⟨"href", "guide.Pdf?v=1"⟩] [],
                HNode.mk .elementNode "a" [⟨"href", "page.html"⟩] []]]]])).filterMap
        matchLink ∧
    (extractPDFUrls (HNode.mk .documentNode "" []
        [HNode.mk .elementNode "html" []
          [HNode.mk .elementNode "body" []
            [HNode.mk .elementNode "a" [⟨"href", "Manual.PDF"⟩] [],
             HNode.mk .elementNode "div" []
               [HNode.mk .elementNode "a" [⟨"href", "guide.Pdf?v=1"⟩] [],
                HNode.mk .elementNode "a" [⟨"href", "page.html"⟩] []]]]])).length =
      ((nodesPreorder (HNode.mk .documentNode "" []
        [HNode.mk .elementNode "html" []
          [HNode.mk .elementNode "body" []
            [HNode.mk .elementNode "a" [⟨"href", "Manual.PDF"⟩] [],
             HNode.mk .elementNode "div" []
               [HNode.mk .elementNode "a" [⟨"href", "guide.Pdf?v=1"⟩] [],
                HNode.mk .elementNode "a" [⟨"href", "page.html"⟩] []]]]])).filter
        isMatchingAnchor).length :=
  extractPDFUrls_matching_anchors _ (by decide)

/-- C10: every link returned by `extractPDFUrls` is the
whitespace-trimmed value of an `href` attribute of some anchor element
of the tree, and the case-insensitive `".pdf"` test holds of that
trimmed value; concretely, an anchor with href `"  Doc.PDF "` yields
the link `"Doc.PDF"`. -/
theorem extractPDFUrls_trims (root : HNode) (link : String)
    (h : link ∈ extractPDFUrls root) :
    (∃ t d attrs cs a, HNode.mk t d attrs cs ∈ nodesPreorder root ∧
      t = NodeType.elementNode ∧ d = "a" ∧ a ∈ attrs ∧ a.key = "href" ∧
      link = trimSpace a.val ∧
      strContains (strToLower (trimSpace a.val)) ".pdf" = true) ∧
    extractPDFUrls (HNode.mk .elementNode "a" [⟨"href", "  Doc.PDF "⟩] []) =
      ["Doc.PDF"] := by
  constructor
  · rw [extractPDFUrls, exploreHTML_eq_flatMap] at h
    obtain ⟨n, hn, hlink⟩ := List.mem_flatMap.mp h
    rcases n with ⟨t, d, attrs, cs⟩
    rw [ownLinks] at hlink
    split at hlink
    · rename_i ha
      rw [nodeLinks] at hlink
      obtain ⟨a, hmem, hga⟩ := List.mem_filterMap.mp hlink
      by_cases hk : a.key = "href"
      · rw [if_pos hk] at hga
        by_cases hm : strContains (strToLower (trimSpace a.val)) ".pdf" = true
        · rw [if_pos hm] at hga
          exact ⟨t, d, attrs, cs, a, hn, ha.1, ha.2, hmem, hk,
            (Option.some.inj hga).symm, hm⟩
        · rw [Bool.not_eq_true] at hm
          rw [if_neg (by simp [hm])] at hga
          exact absurd hga (by simp)
      · rw [if_neg hk] at hga
        exact absurd hga (by simp)
    · exact absurd hlink (by simp)
  · decide

/-- Concrete instance of C10: the anchor with href `"  Doc.PDF "`
returns the trimmed link `"Doc.PDF"`, which comes from an `href`
attribute and passes the trimmed, case-insensitive test. -/
theorem extractPDFUrls_trims_witness :
    (∃ t d attrs cs a, HNode.mk t d attrs cs ∈ nodesPreorder
        (HNode.mk .elementNode "a" [⟨"href", "  Doc.PDF "⟩] []) ∧
      t = NodeType.elementNode ∧ d = "a" ∧ a ∈ attrs ∧ a.key = "href" ∧
      ("Doc.PDF" : String) = trimSpace a.val ∧
      strContains (strToLower (trimSpace a.val)) ".pdf" = true) ∧
    extractPDFUrls (HNode.mk .elementNode "a" [⟨"href", "  Doc.PDF "⟩] []) =
      ["Doc.PDF"] :=
  extractPDFUrls_trims (HNode.mk .elementNode "a" [⟨"href", "  Doc.PDF "⟩] [])
    "Doc.PDF" (by decide)

end Scraper
